import Mathlib

/-!
# Verification of the snake game engine (src/main.rs)

A shallow embedding of the game-simulation engine of the `snake` repository:
the `State` record, the direction-input handlers `up`/`right`/`down`/`left`,
`score`, `lost`, and the tick transition `update_state`, together with
theorems about the specified properties.

Modelling conventions:
* `i16` coordinates become `Int` (the engine keeps all coordinates inside the
  40×20 board, far from any overflow).
* `usize` values become `Nat`; the `usize` subtraction in `score` becomes
  truncated `Nat` subtraction.
* The `[[bool; 40]; 20]` food board becomes `List (List Bool)` indexed
  row-first (`board[y][x]`), with `List.getD`/`List.set` for reads and writes.
* `VecDeque<Pos>` becomes `List Pos` with the head at index 0; `snake[0]` and
  `back().unwrap()` (which panic on an empty deque) are totalised with the
  default position `⟨0, 0⟩`; reachable states always have length ≥ 3.
* The random generator is dependency-injected: the Bernoulli trial
  `rng.gen_bool(p)` becomes an oracle `g : Rat → Bool` applied to the exact
  probability argument `p`, and `options.choose(&mut rng)` becomes selection
  of the element at an injected index `pk` modulo the number of candidates
  (`none` exactly when there are no candidates).
* `f32`/`f64` arithmetic (the tick-interval formula and
  `Duration::as_secs_f64`) is modelled by exact rational arithmetic with the
  final `as u64` cast as `floor`.
* Wall-clock fields (`last_update`) and rendering are outside the model; the
  `u32` tick counter wraps modulo `2 ^ 32`.
-/

namespace Snake

/-- `const START_LENGTH: usize = 3`. -/
def START_LENGTH : Nat := 3

/-- `const BOARD_WIDTH: i16 = 40`. -/
def BOARD_WIDTH : Int := 40

/-- `const BOARD_HEIGHT: i16 = 20`. -/
def BOARD_HEIGHT : Int := 20

/-- `struct Pos { x: i16, y: i16 }`. -/
structure Pos where
  x : Int
  y : Int
deriving DecidableEq

/-- `enum Direction { Up, Right, Down, Left }`. -/
inductive Direction where
  | Up
  | Right
  | Down
  | Left
deriving DecidableEq

/-- The 180° opposite of a direction.  The source encodes reversal by four
explicit comparisons (`up` is ignored when the direction is `Down`, etc.);
this function names that correspondence for the statements below. -/
def Direction.reverse : Direction → Direction
  | .Up => .Down
  | .Right => .Left
  | .Down => .Up
  | .Left => .Right

/-- The food board `[[bool; BOARD_WIDTH]; BOARD_HEIGHT]`, row-first. -/
abbrev Board := List (List Bool)

/-- `struct State`, without the wall-clock field `last_update` (render-side
timing, outside the engine model).  `update_interval` is kept in
milliseconds, as produced by `Duration::from_millis`. -/
structure State where
  paused : Bool
  direction : Direction
  next_input : Option Direction
  snake : List Pos
  last_tail_pos : Pos
  board : Board
  update_interval : Nat
  last_score : Option Nat
  tick : Nat
deriving DecidableEq

/-- `struct SnakeApp { scores: Vec<usize>, state: State }`. -/
structure SnakeApp where
  scores : List Nat
  state : State
deriving DecidableEq

/-- `impl Default for State`: paused, heading right, snake
`[(4,3), (3,3), (2,3)]` (head first), empty board, 100 ms interval. -/
def State.default : State :=
  { paused := true
    direction := Direction.Right
    next_input := none
    snake := (List.range START_LENGTH).reverse.map (fun i => ⟨2 + (i : Int), 3⟩)
    last_tail_pos := ⟨1, 3⟩
    board := List.replicate BOARD_HEIGHT.toNat (List.replicate BOARD_WIDTH.toNat false)
    update_interval := 100
    last_score := none
    tick := 1 }

/-- The app as created at startup with no persisted storage:
`SnakeApp::default()` (empty score list, default state). -/
def initApp : SnakeApp :=
  { scores := [], state := State.default }

/-- Displacement of one cell in a direction, as in the `match` computing
`new_head` in `update_state`. -/
def movePos (p : Pos) : Direction → Pos
  | .Up => ⟨p.x, p.y - 1⟩
  | .Right => ⟨p.x + 1, p.y⟩
  | .Down => ⟨p.x, p.y + 1⟩
  | .Left => ⟨p.x - 1, p.y⟩

/-- The boundary condition `(0..BOARD_WIDTH).contains(&x) &&
(0..BOARD_HEIGHT).contains(&y)` (the source tests its negation). -/
def inBounds (p : Pos) : Prop :=
  0 ≤ p.x ∧ p.x < BOARD_WIDTH ∧ 0 ≤ p.y ∧ p.y < BOARD_HEIGHT

instance (p : Pos) : Decidable (inBounds p) := by
  unfold inBounds; infer_instance

/-- `state.board[p.y as usize][p.x as usize]` (reads only happen on
bounds-checked positions; out-of-range reads default to `false`). -/
def boardGet (b : Board) (p : Pos) : Bool :=
  (b.getD p.y.toNat []).getD p.x.toNat false

/-- `state.board[p.y as usize][p.x as usize] = v`. -/
def boardSet (b : Board) (p : Pos) (v : Bool) : Board :=
  b.set p.y.toNat ((b.getD p.y.toNat []).set p.x.toNat v)

/-- `state.board.iter().flatten().filter(|f| **f).count()`. -/
def countFood (b : Board) : Nat :=
  (b.flatten.filter (fun f => f)).length

/-- The candidate cells for apple placement: the nested loop over the board
collecting every cell holding no food and not occupied by the snake, in
row-major order. -/
def foodOptions (b : Board) (snake : List Pos) : List Pos :=
  (b.enum.map (fun yrow =>
    yrow.2.enum.filterMap (fun xf =>
      if xf.2 then none
      else
        let p : Pos := ⟨(xf.1 : Int), (yrow.1 : Int)⟩
        if p ∈ snake then none else some p))).flatten

/-- `options.choose(&mut rng)` with the randomness injected as an index:
`none` exactly on the empty list, otherwise the element at `pk` modulo the
length (every element is selected by some `pk`). -/
def chooseOpt (l : List Pos) (pk : Nat) : Option Pos :=
  l[pk % l.length]?

/-- `Duration::from_millis((200.0 * (20.0 / (score + 20.0))) as u64)`,
with the float arithmetic as exact rationals and `as u64` as `floor`. -/
def intervalMillis (score : Nat) : Nat :=
  ((200 : Rat) * (20 / ((score : Rat) + 20))).floor.toNat

/-- `state.update_interval.as_secs_f64() / 3.0`: the probability handed to
`rng.gen_bool` for an interval of `millis` milliseconds. -/
def spawnProb (millis : Nat) : Rat :=
  (millis : Rat) / 1000 / 3

/-- `fn score(&self) -> usize { self.state.snake.len() - START_LENGTH }`
(truncated `Nat` subtraction in place of the `usize` subtraction). -/
def SnakeApp.score (app : SnakeApp) : Nat :=
  app.state.snake.length - START_LENGTH

/-- The score-list update inside `fn lost`: when the score is positive, push
it, sort descending (`sort_by(|a, b| b.cmp(a))`, a stable sort) and truncate
to 10 entries; otherwise leave the list alone. -/
def recordScore (scores : List Nat) (score : Nat) : List Nat :=
  if 0 < score then
    ((scores ++ [score]).mergeSort (fun a b => decide (b ≤ a))).take 10
  else scores

/-- `fn lost`: record the score, replace the state by `State::default()` and
set `last_score = Some(score)` (the `clear_animations` call is render-side). -/
def lost (app : SnakeApp) : SnakeApp :=
  let score := app.score
  { scores := recordScore app.scores score
    state := { State.default with last_score := some score } }

/-- `fn up`: queue `Up` unless the current direction is `Down`. -/
def SnakeApp.up (app : SnakeApp) : SnakeApp :=
  if app.state.direction = Direction.Down then app
  else { app with state := { app.state with next_input := some Direction.Up } }

/-- `fn right`: queue `Right` unless the current direction is `Left`. -/
def SnakeApp.right (app : SnakeApp) : SnakeApp :=
  if app.state.direction = Direction.Left then app
  else { app with state := { app.state with next_input := some Direction.Right } }

/-- `fn down`: queue `Down` unless the current direction is `Up`. -/
def SnakeApp.down (app : SnakeApp) : SnakeApp :=
  if app.state.direction = Direction.Up then app
  else { app with state := { app.state with next_input := some Direction.Down } }

/-- `fn left`: queue `Left` unless the current direction is `Right`. -/
def SnakeApp.left (app : SnakeApp) : SnakeApp :=
  if app.state.direction = Direction.Right then app
  else { app with state := { app.state with next_input := some Direction.Left } }

/-- The space-key handler inside `App::update`:
`self.state.paused = !self.state.paused`, with no other effect. -/
def toggle_pause (app : SnakeApp) : SnakeApp :=
  { app with state := { app.state with paused := !app.state.paused } }

/-- A directional input as dispatched by `App::update`: the arrow/WASD/vim
key handlers run only while unpaused, and each calls the matching one of
`up`/`right`/`down`/`left`. -/
def submit_direction (app : SnakeApp) (d : Direction) : SnakeApp :=
  if app.state.paused then app
  else
    match d with
    | .Up => app.up
    | .Right => app.right
    | .Down => app.down
    | .Left => app.left

/-- The first step of `update_state`:
`if let Some(dir) = state.next_input { state.direction = dir; }`
(the queued input is committed; the source never clears `next_input`). -/
def commitInput (s : State) : State :=
  match s.next_input with
  | some d => { s with direction := d }
  | none => s

/-- The direction a tick started now would move in: the queued input if one
exists, the current direction otherwise. -/
def effectiveDir (s : State) : Direction :=
  s.next_input.getD s.direction

/-- The head position a tick started now would move to. -/
def nextHead (s : State) : Pos :=
  movePos (s.snake.headD ⟨0, 0⟩) (effectiveDir s)

/-- The apple-placement block at the end of `update_state`: when no food
exists, or fewer than 10 food cells exist and the Bernoulli trial with
probability `update_interval / 3` seconds succeeds, place one apple on a
random candidate cell (skipping silently when no candidate exists). -/
def placeApple (s : State) (g : Rat → Bool) (pk : Nat) : State :=
  let apple_count := countFood s.board
  if apple_count = 0 ∨
      (apple_count < 10 ∧ g (spawnProb s.update_interval) = true) then
    match chooseOpt (foodOptions s.board s.snake) pk with
    | some apple => { s with board := boardSet s.board apple true }
    | none => s
  else s

/-- `fn update_state`, the tick transition.  `g` is the injected Bernoulli
oracle and `pk` the injected choice index (see `placeApple`).  Steps, in
source order: commit the queued direction, recompute the interval from the
score, compute the new head, boundary check (losing exits immediately),
record the tail for render interpolation, food check (eat, or else pop the
tail), self-collision check (losing exits immediately), push the new head,
place an apple, bump the wrapping `u32` tick counter. -/
def update_state (app : SnakeApp) (g : Rat → Bool) (pk : Nat) : SnakeApp :=
  let score := app.score
  let s0 := commitInput app.state
  let s1 := { s0 with update_interval := intervalMillis score }
  let newHead := movePos (s1.snake.headD ⟨0, 0⟩) s1.direction
  if inBounds newHead then
    let s2 := { s1 with last_tail_pos := s1.snake.getLastD ⟨0, 0⟩ }
    let eaten := boardGet s2.board newHead
    let s3 :=
      if eaten then { s2 with board := boardSet s2.board newHead false }
      else { s2 with snake := s2.snake.dropLast }
    if newHead ∈ s3.snake then lost { app with state := s3 }
    else
      let s4 := { s3 with snake := newHead :: s3.snake }
      let s5 := placeApple s4 g pk
      { app with state := { s5 with tick := (s5.tick + 1) % 4294967296 } }
  else lost { app with state := s1 }

/-- The states reachable from startup through the engine operations: the
space-key pause toggle, directional inputs (honoured only while running),
and ticks (run by `App::update` only while unpaused). -/
inductive Reachable : SnakeApp → Prop where
  | init : Reachable initApp
  | toggle {a : SnakeApp} : Reachable a → Reachable (toggle_pause a)
  | submit {a : SnakeApp} {d : Direction} :
      Reachable a → Reachable (submit_direction a d)
  | tick {a : SnakeApp} {g : Rat → Bool} {pk : Nat} :
      Reachable a → a.state.paused = false → Reachable (update_state a g pk)


/-! ## Basic lemmas -/

lemma movePos_ne (p : Pos) (d : Direction) : movePos p d ≠ p := by
  obtain ⟨x, y⟩ := p
  cases d <;> simp only [movePos, ne_eq, Pos.mk.injEq] <;> omega

lemma movePos_inj (p : Pos) {d₁ d₂ : Direction}
    (h : movePos p d₁ = movePos p d₂) : d₁ = d₂ := by
  obtain ⟨x, y⟩ := p
  cases d₁ <;> cases d₂ <;> first
    | rfl
    | (exfalso; simp only [movePos, Pos.mk.injEq] at h; omega)


lemma reverse_ne_self (d : Direction) : d.reverse ≠ d := by
  cases d <;> decide

lemma commitInput_eq (s : State) :
    commitInput s = { s with direction := effectiveDir s } := by
  obtain ⟨p, d, ni, sn, lt, b, ui, ls, tk⟩ := s
  cases ni <;> rfl

lemma lost_state (app : SnakeApp) :
    (lost app).state = { State.default with last_score := some app.score } := rfl

lemma lost_scores (app : SnakeApp) :
    (lost app).scores = recordScore app.scores app.score := rfl

lemma placeApple_shape (s : State) (g : Rat → Bool) (pk : Nat) :
    ∃ b : Board, placeApple s g pk = { s with board := b } := by
  unfold placeApple
  dsimp only
  split
  · split
    · exact ⟨_, rfl⟩
    · exact ⟨s.board, rfl⟩
  · exact ⟨s.board, rfl⟩

/-- The state just before the boundary check: queued direction committed,
interval recomputed. -/
def preBase (app : SnakeApp) : State :=
  { app.state with
      direction := effectiveDir app.state
      update_interval := intervalMillis app.score }

/-- `preBase` with the tail position recorded for render interpolation. -/
def tickBase (app : SnakeApp) : State :=
  { preBase app with last_tail_pos := app.state.snake.getLastD ⟨0, 0⟩ }

/-- The state after the food check when the new head ate an apple: the food
cell is cleared and the tail is kept. -/
def postEat (app : SnakeApp) : State :=
  { tickBase app with
      board := boardSet app.state.board (nextHead app.state) false }

/-- The state after the food check when no apple was eaten: the tail is
popped. -/
def postMove (app : SnakeApp) : State :=
  { tickBase app with snake := app.state.snake.dropLast }

/-- The tail end of a surviving tick: apple placement, then the wrapping
tick-counter increment. -/
def finishTick (s : State) (g : Rat → Bool) (pk : Nat) : State :=
  let s5 := placeApple s g pk
  { s5 with tick := (s5.tick + 1) % 4294967296 }

/-- Tick outcome, boundary-loss branch: moving out of bounds loses with the
snake untouched. -/
lemma update_state_out (app : SnakeApp) (g : Rat → Bool) (pk : Nat)
    (h : ¬ inBounds (nextHead app.state)) :
    update_state app g pk = lost { app with state := preBase app } := by
  unfold update_state
  rw [commitInput_eq]
  dsimp only [nextHead, effectiveDir] at h ⊢
  rw [if_neg h]
  rfl

/-- Tick outcome, eat-then-collide branch (the new head is both a food cell
and a body cell): the food cell is cleared, the tail kept, and the
self-collision check loses. -/
lemma update_state_eat_collide (app : SnakeApp) (g : Rat → Bool) (pk : Nat)
    (hin : inBounds (nextHead app.state))
    (heat : boardGet app.state.board (nextHead app.state) = true)
    (hmem : nextHead app.state ∈ app.state.snake) :
    update_state app g pk = lost { app with state := postEat app } := by
  unfold update_state
  rw [commitInput_eq]
  dsimp only [nextHead, effectiveDir] at hin heat hmem ⊢
  rw [if_pos hin, heat, if_pos rfl]
  dsimp only
  rw [if_pos hmem]
  rfl

/-- Tick outcome, eating branch: the food cell is cleared, the tail kept,
the new head pushed, an apple possibly placed, the tick counter bumped. -/
lemma update_state_eat (app : SnakeApp) (g : Rat → Bool) (pk : Nat)
    (hin : inBounds (nextHead app.state))
    (heat : boardGet app.state.board (nextHead app.state) = true)
    (hmem : nextHead app.state ∉ app.state.snake) :
    update_state app g pk =
      { app with state := finishTick ({ postEat app with snake := nextHead app.state :: app.state.snake }) g pk } := by
  unfold update_state
  rw [commitInput_eq]
  dsimp only [nextHead, effectiveDir] at hin heat hmem ⊢
  rw [if_pos hin, heat, if_pos rfl]
  dsimp only
  rw [if_neg hmem]
  rfl

/-- Tick outcome, move-then-collide branch (no food at the new head, which
lies on the body with the tail already popped): loss. -/
lemma update_state_move_collide (app : SnakeApp) (g : Rat → Bool) (pk : Nat)
    (hin : inBounds (nextHead app.state))
    (heat : boardGet app.state.board (nextHead app.state) = false)
    (hmem : nextHead app.state ∈ app.state.snake.dropLast) :
    update_state app g pk = lost { app with state := postMove app } := by
  unfold update_state
  rw [commitInput_eq]
  dsimp only [nextHead, effectiveDir] at hin heat hmem ⊢
  rw [if_pos hin, heat, if_neg Bool.false_ne_true]
  dsimp only
  rw [if_pos hmem]
  rfl

/-- Tick outcome, plain move branch: the tail is popped, the new head
pushed, an apple possibly placed, the tick counter bumped. -/
lemma update_state_move (app : SnakeApp) (g : Rat → Bool) (pk : Nat)
    (hin : inBounds (nextHead app.state))
    (heat : boardGet app.state.board (nextHead app.state) = false)
    (hmem : nextHead app.state ∉ app.state.snake.dropLast) :
    update_state app g pk =
      { app with state := finishTick ({ postMove app with snake := nextHead app.state :: app.state.snake.dropLast }) g pk } := by
  unfold update_state
  rw [commitInput_eq]
  dsimp only [nextHead, effectiveDir] at hin heat hmem ⊢
  rw [if_pos hin, heat, if_neg Bool.false_ne_true]
  dsimp only
  rw [if_neg hmem]
  rfl

lemma finishTick_fields (s : State) (g : Rat → Bool) (pk : Nat) :
    (finishTick s g pk).paused = s.paused ∧
    (finishTick s g pk).direction = s.direction ∧
    (finishTick s g pk).next_input = s.next_input ∧
    (finishTick s g pk).snake = s.snake ∧
    (finishTick s g pk).last_tail_pos = s.last_tail_pos ∧
    (finishTick s g pk).update_interval = s.update_interval ∧
    (finishTick s g pk).last_score = s.last_score := by
  obtain ⟨b, hb⟩ := placeApple_shape s g pk
  unfold finishTick
  rw [hb]
  exact ⟨rfl, rfl, rfl, rfl, rfl, rfl, rfl⟩

lemma update_state_lost_or_normal (a : SnakeApp) (g : Rat → Bool) (pk : Nat) :
    (∃ b, update_state a g pk = lost b) ∨
    ((update_state a g pk).state.paused = a.state.paused ∧
     (update_state a g pk).state.direction = effectiveDir a.state ∧
     (update_state a g pk).state.next_input = a.state.next_input) := by
  by_cases hin : inBounds (nextHead a.state)
  · cases heat : boardGet a.state.board (nextHead a.state)
    · by_cases hmem : nextHead a.state ∈ a.state.snake.dropLast
      · exact Or.inl ⟨_, update_state_move_collide a g pk hin heat hmem⟩
      · right
        rw [update_state_move a g pk hin heat hmem]
        exact ⟨(finishTick_fields _ g pk).1, (finishTick_fields _ g pk).2.1,
          (finishTick_fields _ g pk).2.2.1⟩
    · by_cases hmem : nextHead a.state ∈ a.state.snake
      · exact Or.inl ⟨_, update_state_eat_collide a g pk hin heat hmem⟩
      · right
        rw [update_state_eat a g pk hin heat hmem]
        exact ⟨(finishTick_fields _ g pk).1, (finishTick_fields _ g pk).2.1,
          (finishTick_fields _ g pk).2.2.1⟩
  · exact Or.inl ⟨_, update_state_out a g pk hin⟩

/-! ## Claim theorems -/

/-- The all-false Bernoulli oracle, used to instantiate witnesses. -/
def gF : Rat → Bool := fun _ => false

/-- A freshly started, unpaused app (space pressed once at startup). -/
def runApp : SnakeApp :=
  { scores := [], state := { State.default with paused := false } }

/-- C9: `toggle_pause` flips the paused flag and changes nothing else:
scores, direction, pending input, snake, last tail position, food board,
tick interval, last final score and tick counter are all unchanged. -/
theorem toggle_pause_flips_only_paused (app : SnakeApp) :
    (toggle_pause app).state.paused = !app.state.paused ∧
    (toggle_pause app).scores = app.scores ∧
    (toggle_pause app).state.direction = app.state.direction ∧
    (toggle_pause app).state.next_input = app.state.next_input ∧
    (toggle_pause app).state.snake = app.state.snake ∧
    (toggle_pause app).state.last_tail_pos = app.state.last_tail_pos ∧
    (toggle_pause app).state.board = app.state.board ∧
    (toggle_pause app).state.update_interval = app.state.update_interval ∧
    (toggle_pause app).state.last_score = app.state.last_score ∧
    (toggle_pause app).state.tick = app.state.tick :=
  ⟨rfl, rfl, rfl, rfl, rfl, rfl, rfl, rfl, rfl, rfl⟩

/-- C3: while running, submitting a direction `d` that is not the reverse of
the current direction stores `d` as the pending input (overwriting any
previous pending value), and the next tick commits `d` as the current
direction (observable whenever that tick survives, i.e. leaves the game
unpaused); submitting the reverse direction is silently ignored and the
whole app is unchanged. -/
theorem submit_direction_behavior (app : SnakeApp) (d : Direction)
    (hrun : app.state.paused = false) :
    (d ≠ app.state.direction.reverse →
      (submit_direction app d).state.next_input = some d ∧
      ∀ g pk, (update_state (submit_direction app d) g pk).state.paused = false →
        (update_state (submit_direction app d) g pk).state.direction = d) ∧
    (d = app.state.direction.reverse → submit_direction app d = app) := by
  constructor
  · intro hne
    have hni : (submit_direction app d).state.next_input = some d := by
      cases hdir : app.state.direction <;> cases d <;>
        simp_all [submit_direction, SnakeApp.up, SnakeApp.right, SnakeApp.down,
          SnakeApp.left, Direction.reverse]
    refine ⟨hni, ?_⟩
    intro g pk hp
    rcases update_state_lost_or_normal (submit_direction app d) g pk with
      ⟨b, hb⟩ | ⟨-, hdir, -⟩
    · rw [hb] at hp
      exact Bool.noConfusion hp
    · rw [hdir, effectiveDir, hni]
      rfl
  · intro heq
    have hdir : app.state.direction = d.reverse := by
      rw [heq]
      cases hd : app.state.direction <;> rfl
    unfold submit_direction
    rw [if_neg (by simp [hrun])]
    cases d
    · unfold SnakeApp.up
      rw [if_pos (show app.state.direction = Direction.Down from hdir)]
    · unfold SnakeApp.right
      rw [if_pos (show app.state.direction = Direction.Left from hdir)]
    · unfold SnakeApp.down
      rw [if_pos (show app.state.direction = Direction.Up from hdir)]
    · unfold SnakeApp.left
      rw [if_pos (show app.state.direction = Direction.Right from hdir)]

set_option maxRecDepth 200000 in
/-- Witness for C3 at a concrete state: in the fresh running app (heading
`Right`), submitting `Up` queues it and the next tick heads `Up`, while
submitting `Left` (the reverse of `Right`) is a no-op. -/
theorem submit_direction_behavior_witness :
    (submit_direction runApp Direction.Up).state.next_input =
      some Direction.Up ∧
    (update_state (submit_direction runApp Direction.Up) gF 0).state.direction =
      Direction.Up ∧
    submit_direction runApp Direction.Left = runApp := by
  have h := submit_direction_behavior runApp Direction.Up rfl
  have h₂ := submit_direction_behavior runApp Direction.Left rfl
  exact ⟨(h.1 (by decide)).1,
    (h.1 (by decide)).2 gF 0 (by decide),
    h₂.2 (by decide)⟩

/-- C4: while running, a tick whose new head leaves `[0,40)×[0,20)` loses:
the state is reset to the default values (snake of length `START_LENGTH`,
direction `Right`, paused) except that `last_score` records the final score,
and the score list receives the final score via `recordScore`. -/
theorem boundary_loss (app : SnakeApp) (g : Rat → Bool) (pk : Nat)
    (hrun : app.state.paused = false)
    (hne : app.state.snake ≠ [])
    (hout : ¬ inBounds (nextHead app.state)) :
    (update_state app g pk).state =
      { State.default with last_score := some app.score } ∧
    (update_state app g pk).scores = recordScore app.scores app.score ∧
    State.default.snake.length = START_LENGTH ∧
    State.default.direction = Direction.Right ∧
    State.default.paused = true := by
  rw [update_state_out app g pk hout]
  exact ⟨rfl, rfl, by decide, rfl, rfl⟩

/-- An unpaused app with the snake against the left wall, heading left:
`[(0,3), (1,3), (2,3)]`. -/
def wallApp : SnakeApp :=
  { scores := []
    state := { State.default with
                paused := false
                direction := Direction.Left
                snake := [⟨0, 3⟩, ⟨1, 3⟩, ⟨2, 3⟩] } }

/-- Witness for C4: ticking `wallApp` moves the head to `(-1, 3)`, loses,
and resets. -/
theorem boundary_loss_witness :
    (update_state wallApp gF 0).state =
      { State.default with last_score := some wallApp.score } ∧
    (update_state wallApp gF 0).scores = recordScore wallApp.scores wallApp.score ∧
    State.default.snake.length = START_LENGTH ∧
    State.default.direction = Direction.Right ∧
    State.default.paused = true :=
  boundary_loss wallApp gF 0 rfl (by decide) (by decide)

/-- C1: while running, when no food sits at the new head and the new head
coincides with the current tail cell only (it is the last snake cell and
not among the earlier cells), the tick does NOT lose: the tail is popped
before the self-collision check, so the game stays unpaused and the snake
advances normally (new head in front, old tail gone). -/
theorem tail_cell_vacated_no_collision (app : SnakeApp) (g : Rat → Bool) (pk : Nat)
    (hrun : app.state.paused = false)
    (hne : app.state.snake ≠ [])
    (hin : inBounds (nextHead app.state))
    (hfood : boardGet app.state.board (nextHead app.state) = false)
    (htail : nextHead app.state = app.state.snake.getLastD ⟨0, 0⟩)
    (honly : nextHead app.state ∉ app.state.snake.dropLast) :
    (update_state app g pk).state.paused = false ∧
    (update_state app g pk).state.snake =
      nextHead app.state :: app.state.snake.dropLast := by
  rw [update_state_move app g pk hin hfood honly]
  exact ⟨((finishTick_fields _ g pk).1).trans hrun,
    (finishTick_fields _ g pk).2.2.2.1⟩

/-- An unpaused app whose snake forms a 2×2 loop, heading onto its own tail
cell: snake `[(0,0), (1,0), (1,1), (0,1)]`, direction `Down`. -/
def loopApp : SnakeApp :=
  { scores := []
    state := { State.default with
                paused := false
                direction := Direction.Down
                snake := [⟨0, 0⟩, ⟨1, 0⟩, ⟨1, 1⟩, ⟨0, 1⟩] } }

set_option maxRecDepth 200000 in
/-- Witness for C1: in `loopApp` the next head `(0,1)` is exactly the tail
cell being vacated, and the tick completes normally. -/
theorem tail_cell_vacated_no_collision_witness :
    (update_state loopApp gF 0).state.paused = false ∧
    (update_state loopApp gF 0).state.snake =
      nextHead loopApp.state :: loopApp.state.snake.dropLast :=
  tail_cell_vacated_no_collision loopApp gF 0 rfl (by decide) (by decide)
    (by decide) (by decide) (by decide)

/-! ## Board access lemmas -/

lemma getD_set_self {α : Type} (l : List α) (i : Nat) (a d : α)
    (h : i < l.length) : (l.set i a).getD i d = a := by
  rw [List.getD_eq_getElem?_getD, List.getElem?_set_self h]
  rfl

lemma getD_set_ne {α : Type} (l : List α) {i j : Nat} (a d : α) (h : i ≠ j) :
    (l.set i a).getD j d = l.getD j d := by
  rw [List.getD_eq_getElem?_getD, List.getElem?_set_ne h,
    ← List.getD_eq_getElem?_getD]

lemma boardGet_boardSet_ne (b : Board) (p q : Pos) (v : Bool)
    (h : p.y.toNat ≠ q.y.toNat ∨ p.x.toNat ≠ q.x.toNat) :
    boardGet (boardSet b p v) q = boardGet b q := by
  unfold boardGet boardSet
  rcases h with h | h
  · rw [getD_set_ne _ _ _ h]
  · by_cases hy : p.y.toNat = q.y.toNat
    · rw [← hy]
      by_cases hlen : p.y.toNat < b.length
      · rw [getD_set_self _ _ _ _ hlen, getD_set_ne _ _ _ h]
      · rw [List.set_eq_of_length_le (le_of_not_lt hlen)]
    · rw [getD_set_ne _ _ _ hy]

lemma boardGet_boardSet_self (b : Board) (p : Pos) (v : Bool)
    (hy : p.y.toNat < b.length)
    (hx : p.x.toNat < (b.getD p.y.toNat []).length) :
    boardGet (boardSet b p v) p = v := by
  unfold boardGet boardSet
  rw [getD_set_self _ _ _ _ hy, getD_set_self _ _ _ _ hx]

/-- Inverting a read of a written board: a `true` cell after `boardSet` is
either the written cell (with `v = true`) or was already `true`. -/
lemma boardGet_boardSet_true (b : Board) (p q : Pos) (v : Bool)
    (h : boardGet (boardSet b p v) q = true) :
    (q.y.toNat = p.y.toNat ∧ q.x.toNat = p.x.toNat ∧ v = true) ∨
      boardGet b q = true := by
  by_cases hy : p.y.toNat = q.y.toNat
  case neg => rw [boardGet_boardSet_ne b p q v (Or.inl hy)] at h; exact Or.inr h
  case pos =>
  by_cases hx : p.x.toNat = q.x.toNat
  case neg => rw [boardGet_boardSet_ne b p q v (Or.inr hx)] at h; exact Or.inr h
  case pos =>
  by_cases hylen : p.y.toNat < b.length
  case neg =>
    right
    unfold boardSet at h
    rw [List.set_eq_of_length_le (le_of_not_lt hylen)] at h
    exact h
  case pos =>
  by_cases hxlen : p.x.toNat < (b.getD p.y.toNat []).length
  case neg =>
    right
    unfold boardGet at h ⊢
    unfold boardSet at h
    rw [← hy, ← hx] at h ⊢
    rw [List.set_eq_of_length_le (le_of_not_lt hxlen)] at h
    rw [getD_set_self _ _ _ _ hylen] at h
    exact h
  case pos =>
    left
    have hq : boardGet (boardSet b p v) q = boardGet (boardSet b p v) p := by
      unfold boardGet
      rw [← hy, ← hx]
    rw [hq, boardGet_boardSet_self b p v hylen hxlen] at h
    exact ⟨hy.symm, hx.symm, h⟩

/-! ## Food-count lemmas -/

lemma countFood_cons (r : List Bool) (tl : Board) :
    countFood (r :: tl) = (r.filter (fun f => f)).length + countFood tl := by
  unfold countFood
  rw [List.flatten_cons, List.filter_append, List.length_append]

lemma filter_set_false (r : List Bool) (j : Nat) (h : r.getD j false = true) :
    ((r.set j false).filter (fun f => f)).length + 1 =
      (r.filter (fun f => f)).length := by
  induction r generalizing j with
  | nil => simp [List.getD] at h
  | cons a tl ih =>
    cases j with
    | zero =>
      rw [List.getD_cons_zero] at h
      subst h
      simp [List.filter_cons]
    | succ j =>
      rw [List.getD_cons_succ] at h
      rw [List.set_cons_succ, List.filter_cons, List.filter_cons]
      have := ih j h
      cases a <;> simp <;> omega

lemma filter_set_true (r : List Bool) (j : Nat) (hj : j < r.length)
    (h : r.getD j false = false) :
    ((r.set j true).filter (fun f => f)).length =
      (r.filter (fun f => f)).length + 1 := by
  induction r generalizing j with
  | nil => simp at hj
  | cons a tl ih =>
    cases j with
    | zero =>
      rw [List.getD_cons_zero] at h
      subst h
      simp [List.filter_cons]
    | succ j =>
      rw [List.getD_cons_succ] at h
      rw [List.set_cons_succ, List.filter_cons, List.filter_cons]
      have := ih j (by simpa using hj) h
      cases a <;> simp <;> omega

lemma filter_set_le (r : List Bool) (j : Nat) (v : Bool) :
    ((r.set j v).filter (fun f => f)).length ≤
      (r.filter (fun f => f)).length + 1 := by
  induction r generalizing j with
  | nil => simp
  | cons a tl ih =>
    cases j with
    | zero =>
      cases a <;> cases v <;> simp [List.filter_cons] <;> omega
    | succ j =>
      rw [List.set_cons_succ, List.filter_cons, List.filter_cons]
      have := ih j
      cases a <;> simp <;> omega

lemma countFood_set_false (b : Board) (i j : Nat)
    (h : (b.getD i []).getD j false = true) :
    countFood (b.set i ((b.getD i []).set j false)) + 1 = countFood b := by
  induction b generalizing i with
  | nil => simp [List.getD] at h
  | cons r tl ih =>
    cases i with
    | zero =>
      rw [List.getD_cons_zero] at h ⊢
      rw [List.set_cons_zero, countFood_cons, countFood_cons]
      have := filter_set_false r j h
      omega
    | succ i =>
      rw [List.getD_cons_succ] at h ⊢
      rw [List.set_cons_succ, countFood_cons, countFood_cons]
      have := ih i h
      omega

lemma countFood_set_true (b : Board) (i j : Nat)
    (hi : i < b.length) (hj : j < (b.getD i []).length)
    (h : (b.getD i []).getD j false = false) :
    countFood (b.set i ((b.getD i []).set j true)) = countFood b + 1 := by
  induction b generalizing i with
  | nil => simp at hi
  | cons r tl ih =>
    cases i with
    | zero =>
      rw [List.getD_cons_zero] at h hj ⊢
      rw [List.set_cons_zero, countFood_cons, countFood_cons]
      have := filter_set_true r j hj h
      omega
    | succ i =>
      rw [List.getD_cons_succ] at h hj ⊢
      rw [List.set_cons_succ, countFood_cons, countFood_cons]
      have := ih i (by simpa using hi) hj h
      omega

lemma countFood_set_le (b : Board) (i j : Nat) (v : Bool) :
    countFood (b.set i ((b.getD i []).set j v)) ≤ countFood b + 1 := by
  induction b generalizing i with
  | nil => simp [countFood]
  | cons r tl ih =>
    cases i with
    | zero =>
      rw [List.getD_cons_zero, List.set_cons_zero, countFood_cons, countFood_cons]
      have := filter_set_le r j v
      omega
    | succ i =>
      rw [List.getD_cons_succ, List.set_cons_succ, countFood_cons, countFood_cons]
      have := ih i
      omega

lemma countFood_boardSet_false (b : Board) (p : Pos)
    (h : boardGet b p = true) :
    countFood (boardSet b p false) + 1 = countFood b :=
  countFood_set_false b p.y.toNat p.x.toNat h

lemma countFood_boardSet_le (b : Board) (p : Pos) (v : Bool) :
    countFood (boardSet b p v) ≤ countFood b + 1 :=
  countFood_set_le b p.y.toNat p.x.toNat v

/-! ## Candidate-cell and choice lemmas -/

/-- Well-formed board: 20 rows of 40 cells, as allocated by
`[[false; BOARD_WIDTH]; BOARD_HEIGHT]`. -/
def BoardWF (b : Board) : Prop :=
  b.length = BOARD_HEIGHT.toNat ∧ ∀ r ∈ b, r.length = BOARD_WIDTH.toNat

lemma mem_foodOptions (b : Board) (sn : List Pos) (p : Pos) :
    p ∈ foodOptions b sn ↔
      ∃ (y x : Nat) (row : List Bool), b[y]? = some row ∧ row[x]? = some false ∧
        p = ⟨(x : Int), (y : Int)⟩ ∧ p ∉ sn := by
  unfold foodOptions
  rw [List.mem_flatten]
  constructor
  · rintro ⟨l, hl, hpl⟩
    rw [List.mem_map] at hl
    obtain ⟨⟨y, row⟩, hyr, rfl⟩ := hl
    rw [List.mk_mem_enum_iff_getElem?] at hyr
    rw [List.mem_filterMap] at hpl
    obtain ⟨⟨x, c⟩, hxc, hfx⟩ := hpl
    rw [List.mk_mem_enum_iff_getElem?] at hxc
    dsimp only at hfx
    cases c with
    | true => simp at hfx
    | false =>
      by_cases hsn : (⟨(x : Int), (y : Int)⟩ : Pos) ∈ sn
      · rw [if_neg Bool.false_ne_true, if_pos hsn] at hfx
        cases hfx
      · rw [if_neg Bool.false_ne_true, if_neg hsn] at hfx
        obtain rfl := (Option.some.inj hfx).symm
        exact ⟨y, x, row, hyr, hxc, rfl, hsn⟩
  · rintro ⟨y, x, row, hy, hx, rfl, hsn⟩
    refine ⟨_, List.mem_map.mpr ⟨(y, row),
      List.mk_mem_enum_iff_getElem?.mpr hy, rfl⟩, ?_⟩
    rw [List.mem_filterMap]
    refine ⟨(x, false), List.mk_mem_enum_iff_getElem?.mpr hx, ?_⟩
    dsimp only
    rw [if_neg Bool.false_ne_true, if_neg hsn]

lemma foodOptions_not_mem_snake {b : Board} {sn : List Pos} {p : Pos}
    (h : p ∈ foodOptions b sn) : p ∉ sn := by
  obtain ⟨y, x, row, -, -, -, hsn⟩ := (mem_foodOptions b sn p).mp h
  exact hsn

lemma foodOptions_boardGet {b : Board} {sn : List Pos} {p : Pos}
    (h : p ∈ foodOptions b sn) : boardGet b p = false := by
  obtain ⟨y, x, row, hy, hx, rfl, -⟩ := (mem_foodOptions b sn p).mp h
  unfold boardGet
  simp only [Int.toNat_natCast]
  obtain ⟨hylt, hby⟩ := List.getElem?_eq_some.mp hy
  obtain ⟨hxlt, hrx⟩ := List.getElem?_eq_some.mp hx
  rw [List.getD_eq_getElem _ _ hylt, hby, List.getD_eq_getElem _ _ hxlt, hrx]

lemma foodOptions_inBounds {b : Board} {sn : List Pos} {p : Pos}
    (hwf : BoardWF b) (h : p ∈ foodOptions b sn) : inBounds p := by
  obtain ⟨y, x, row, hy, hx, rfl, -⟩ := (mem_foodOptions b sn p).mp h
  obtain ⟨hylt, hby⟩ := List.getElem?_eq_some.mp hy
  obtain ⟨hxlt, hrx⟩ := List.getElem?_eq_some.mp hx
  have hrow : row ∈ b := hby ▸ List.getElem_mem hylt
  have h40 : row.length = BOARD_WIDTH.toNat := hwf.2 row hrow
  have h20 : b.length = BOARD_HEIGHT.toNat := hwf.1
  unfold inBounds BOARD_WIDTH BOARD_HEIGHT at *
  dsimp only
  refine ⟨Int.natCast_nonneg x, ?_, Int.natCast_nonneg y, ?_⟩ <;> omega

/-- Membership in the candidate list over a well-formed board is exactly:
in bounds, no food there, not on the snake. -/
lemma mem_foodOptions_wf {b : Board} {sn : List Pos} {p : Pos}
    (hwf : BoardWF b) :
    p ∈ foodOptions b sn ↔ inBounds p ∧ boardGet b p = false ∧ p ∉ sn := by
  constructor
  · intro h
    exact ⟨foodOptions_inBounds hwf h, foodOptions_boardGet h,
      foodOptions_not_mem_snake h⟩
  · rintro ⟨hin, hbg, hsn⟩
    obtain ⟨hx0, hx40, hy0, hy20⟩ := hin
    rw [mem_foodOptions]
    have hylt : p.y.toNat < b.length := by
      rw [hwf.1]
      unfold BOARD_HEIGHT at hy20 ⊢
      omega
    have hrow : b.getD p.y.toNat [] = b[p.y.toNat] :=
      List.getD_eq_getElem _ _ hylt
    have hrmem : b[p.y.toNat] ∈ b := List.getElem_mem hylt
    have hxlt : p.x.toNat < (b.getD p.y.toNat []).length := by
      rw [hrow, hwf.2 _ hrmem]
      unfold BOARD_WIDTH at hx40 ⊢
      omega
    refine ⟨p.y.toNat, p.x.toNat, b.getD p.y.toNat [], ?_, ?_, ?_, hsn⟩
    · rw [hrow, List.getElem?_eq_getElem hylt]
    · rw [List.getElem?_eq_getElem hxlt]
      unfold boardGet at hbg
      rw [List.getD_eq_getElem _ _ hxlt] at hbg
      rw [hbg]
    · obtain ⟨px, py⟩ := p
      simp only [Pos.mk.injEq]
      constructor <;> simp [Int.toNat_of_nonneg, hx0, hy0]

lemma chooseOpt_eq_none {l : List Pos} {pk : Nat} :
    chooseOpt l pk = none ↔ l = [] := by
  unfold chooseOpt
  constructor
  · intro h
    cases l with
    | nil => rfl
    | cons a tl =>
      rw [List.getElem?_eq_getElem (Nat.mod_lt _ (by simp))] at h
      cases h
  · rintro rfl
    rfl

lemma chooseOpt_mem {l : List Pos} {pk : Nat} {a : Pos}
    (h : chooseOpt l pk = some a) : a ∈ l :=
  List.getElem?_mem h

lemma chooseOpt_surj {l : List Pos} {a : Pos} (h : a ∈ l) :
    ∃ pk, chooseOpt l pk = some a := by
  obtain ⟨i, hi, rfl⟩ := List.mem_iff_getElem.mp h
  refine ⟨i, ?_⟩
  unfold chooseOpt
  rw [Nat.mod_eq_of_lt hi, List.getElem?_eq_getElem hi]

lemma countFood_boardSet_true_of_mem {b : Board} {sn : List Pos} {a : Pos}
    (h : a ∈ foodOptions b sn) :
    countFood (boardSet b a true) = countFood b + 1 := by
  obtain ⟨y, x, row, hy, hx, rfl, -⟩ := (mem_foodOptions b sn a).mp h
  obtain ⟨hylt, hby⟩ := List.getElem?_eq_some.mp hy
  obtain ⟨hxlt, hrx⟩ := List.getElem?_eq_some.mp hx
  unfold boardSet
  simp only [Int.toNat_natCast]
  refine countFood_set_true b y x hylt ?_ ?_
  · rw [List.getD_eq_getElem _ _ hylt, hby]
    exact hxlt
  · rw [List.getD_eq_getElem _ _ hylt, hby, List.getD_eq_getElem _ _ hxlt, hrx]

/-- C7: the per-tick food-spawn step.  With the injected Bernoulli oracle
`g` and choice index `pk`: (1) under the spawn condition — no food at all,
or fewer than 10 food cells and a successful Bernoulli trial at probability
`update_interval` seconds `/ 3` — the step either skips silently (when no
candidate cell exists) or places one apple on the chosen candidate, raising
the food count by exactly one; (2) otherwise nothing changes; (3) at most
one food cell is added per tick; (4) over a well-formed board the candidate
cells are exactly those in bounds, free of food and off the snake; (5) the
choice ranges over all candidates (every candidate is selected by some
index). -/
theorem food_spawn_policy (s : State) (g : Rat → Bool) (pk : Nat) :
    ((countFood s.board = 0 ∨
        (countFood s.board < 10 ∧ g (spawnProb s.update_interval) = true)) →
      (foodOptions s.board s.snake = [] → placeApple s g pk = s) ∧
      (foodOptions s.board s.snake ≠ [] →
        ∃ a ∈ foodOptions s.board s.snake,
          chooseOpt (foodOptions s.board s.snake) pk = some a ∧
          placeApple s g pk = { s with board := boardSet s.board a true } ∧
          countFood (boardSet s.board a true) = countFood s.board + 1)) ∧
    (¬(countFood s.board = 0 ∨
        (countFood s.board < 10 ∧ g (spawnProb s.update_interval) = true)) →
      placeApple s g pk = s) ∧
    countFood (placeApple s g pk).board ≤ countFood s.board + 1 ∧
    (BoardWF s.board → ∀ p,
      p ∈ foodOptions s.board s.snake ↔
        inBounds p ∧ boardGet s.board p = false ∧ p ∉ s.snake) ∧
    (∀ a ∈ foodOptions s.board s.snake,
      ∃ k, chooseOpt (foodOptions s.board s.snake) k = some a) := by
  refine ⟨?_, ?_, ?_, fun hwf p => mem_foodOptions_wf hwf,
    fun a ha => chooseOpt_surj ha⟩
  · intro hcond
    constructor
    · intro hopt
      unfold placeApple
      dsimp only
      rw [if_pos hcond, hopt]
      rfl
    · intro hopt
      cases hch : chooseOpt (foodOptions s.board s.snake) pk with
      | none => exact absurd (chooseOpt_eq_none.mp hch) hopt
      | some a =>
        refine ⟨a, chooseOpt_mem hch, rfl, ?_,
          countFood_boardSet_true_of_mem (chooseOpt_mem hch)⟩
        unfold placeApple
        dsimp only
        rw [if_pos hcond, hch]
  · intro hcond
    unfold placeApple
    dsimp only
    rw [if_neg hcond]
  · by_cases hcond : countFood s.board = 0 ∨
        (countFood s.board < 10 ∧ g (spawnProb s.update_interval) = true)
    · cases hch : chooseOpt (foodOptions s.board s.snake) pk with
      | none =>
        unfold placeApple
        dsimp only
        rw [if_pos hcond, hch]
        exact Nat.le_succ _
      | some a =>
        unfold placeApple
        dsimp only
        rw [if_pos hcond, hch]
        exact countFood_boardSet_le s.board a true
    · unfold placeApple
      dsimp only
      rw [if_neg hcond]
      exact Nat.le_succ _

/-- The default state with a single food cell at the origin. -/
def oneFoodState : State :=
  { State.default with board := boardSet State.default.board ⟨0, 0⟩ true }

set_option maxRecDepth 1000000 in
/-- Witness for C7: with one food cell and a failing Bernoulli trial nothing
spawns; on the empty default board the spawn is mandatory and places one
apple, raising the count to 1. -/
theorem food_spawn_policy_witness :
    placeApple oneFoodState gF 0 = oneFoodState ∧
    countFood (placeApple oneFoodState gF 0).board ≤
      countFood oneFoodState.board + 1 ∧
    (∃ a ∈ foodOptions State.default.board State.default.snake,
      chooseOpt (foodOptions State.default.board State.default.snake) 0 =
        some a ∧
      placeApple State.default gF 0 =
        { State.default with board := boardSet State.default.board a true } ∧
      countFood (boardSet State.default.board a true) =
        countFood State.default.board + 1) := by
  have h₁ := food_spawn_policy oneFoodState gF 0
  have h₂ := food_spawn_policy State.default gF 0
  exact ⟨h₁.2.1 (by decide), h₁.2.2.1,
    (h₂.1 (Or.inl (by decide))).2 (by decide)⟩

/-! ## The reachability invariant -/

lemma movePos_reverse (p : Pos) (d : Direction) :
    movePos (movePos p d) d.reverse = p := by
  obtain ⟨x, y⟩ := p
  cases d <;> simp [movePos, Direction.reverse]

lemma reverse_eq_iff {d e : Direction} : d.reverse = e ↔ d = e.reverse := by
  cases d <;> cases e <;> decide

lemma pos_eq_of_toNat {p q : Pos} (hp : inBounds p) (hq : inBounds q)
    (hy : p.y.toNat = q.y.toNat) (hx : p.x.toNat = q.x.toNat) : p = q := by
  obtain ⟨hpx, -, hpy, -⟩ := hp
  obtain ⟨hqx, -, hqy, -⟩ := hq
  obtain ⟨px, py⟩ := p
  obtain ⟨qx, qy⟩ := q
  simp only [Pos.mk.injEq]
  simp only at hpx hpy hqx hqy hy hx
  omega

lemma boardGet_eq_of_idx (b : Board) {p q : Pos}
    (hy : p.y.toNat = q.y.toNat) (hx : p.x.toNat = q.x.toNat) :
    boardGet b p = boardGet b q := by
  unfold boardGet
  rw [hy, hx]

lemma boardIdx_lt {b : Board} {p : Pos} (hWF : BoardWF b) (hp : inBounds p) :
    p.y.toNat < b.length ∧ p.x.toNat < (b.getD p.y.toNat []).length := by
  obtain ⟨-, hx40, -, hy20⟩ := hp
  have hy : p.y.toNat < b.length := by
    rw [hWF.1]
    unfold BOARD_HEIGHT at hy20 ⊢
    omega
  refine ⟨hy, ?_⟩
  rw [List.getD_eq_getElem _ _ hy, hWF.2 _ (List.getElem_mem hy)]
  unfold BOARD_WIDTH at hx40 ⊢
  omega

lemma boardWF_boardSet {b : Board} (hWF : BoardWF b) (p : Pos) (v : Bool) :
    BoardWF (boardSet b p v) := by
  unfold boardSet
  constructor
  · rw [List.length_set]
    exact hWF.1
  · intro r hr
    by_cases hy : p.y.toNat < b.length
    · rcases List.mem_or_eq_of_mem_set hr with hr' | rfl
      · exact hWF.2 r hr'
      · rw [List.length_set, List.getD_eq_getElem _ _ hy]
        exact hWF.2 _ (List.getElem_mem hy)
    · rw [List.set_eq_of_length_le (le_of_not_lt hy)] at hr
      exact hWF.2 r hr

/-- The engine invariant, maintained by every reachable state: the snake has
at least `START_LENGTH` cells, all in bounds; the board is a well-formed
20×40 grid whose food cells avoid the snake; a pending input is never the
reverse of the current direction; and the second snake cell lies one step
behind the head in the current direction (the `neck` property — the head
cannot step onto it without a forbidden reversal). -/
def InvState (s : State) : Prop :=
  START_LENGTH ≤ s.snake.length ∧
  (∀ p ∈ s.snake, inBounds p) ∧
  BoardWF s.board ∧
  (∀ p, boardGet s.board p = true → p ∉ s.snake) ∧
  (∀ d, s.next_input = some d → d ≠ s.direction.reverse) ∧
  (∀ p₀ p₁ rest, s.snake = p₀ :: p₁ :: rest →
    p₁ = movePos p₀ s.direction.reverse)

/-- The invariant on the whole app. -/
def Inv (app : SnakeApp) : Prop := InvState app.state

lemma boardGet_default (p : Pos) : boardGet State.default.board p = false := by
  show boardGet (List.replicate BOARD_HEIGHT.toNat
    (List.replicate BOARD_WIDTH.toNat false)) p = false
  unfold boardGet
  by_cases hy : p.y.toNat < BOARD_HEIGHT.toNat
  · have h1 : (List.replicate BOARD_HEIGHT.toNat
        (List.replicate BOARD_WIDTH.toNat false)).getD p.y.toNat [] =
        List.replicate BOARD_WIDTH.toNat false := by
      rw [List.getD_eq_getElem?_getD, List.getElem?_replicate, if_pos hy]
      rfl
    rw [h1]
    by_cases hx : p.x.toNat < BOARD_WIDTH.toNat
    · rw [List.getD_eq_getElem?_getD, List.getElem?_replicate, if_pos hx]
      rfl
    · rw [List.getD_eq_getElem?_getD, List.getElem?_replicate, if_neg hx]
      rfl
  · have h1 : (List.replicate BOARD_HEIGHT.toNat
        (List.replicate BOARD_WIDTH.toNat false)).getD p.y.toNat [] =
        ([] : List Bool) := by
      rw [List.getD_eq_getElem?_getD, List.getElem?_replicate, if_neg hy]
      rfl
    rw [h1]
    rfl

lemma invState_default (ls : Option Nat) :
    InvState { State.default with last_score := ls } := by
  refine ⟨?_, ?_, ?_, ?_, ?_, ?_⟩
  · show START_LENGTH ≤ State.default.snake.length
    decide
  · show ∀ p ∈ State.default.snake, inBounds p
    decide
  · show BoardWF (List.replicate BOARD_HEIGHT.toNat
      (List.replicate BOARD_WIDTH.toNat false))
    refine ⟨rfl, ?_⟩
    intro r hr
    rw [(List.mem_replicate.mp hr).2]
    rfl
  · intro p hp
    have hp' : boardGet State.default.board p = true := hp
    rw [boardGet_default p] at hp'
    exact fun _ => Bool.noConfusion hp'
  · intro d hd
    exact Option.noConfusion hd
  · intro p₀ p₁ rest h
    have h' : ([⟨4, 3⟩, ⟨3, 3⟩, ⟨2, 3⟩] : List Pos) = p₀ :: p₁ :: rest := h
    injection h' with he₀ h''
    injection h'' with he₁ h'''
    subst he₀
    subst he₁
    show (⟨3, 3⟩ : Pos) = movePos ⟨4, 3⟩ Direction.Right.reverse
    decide

lemma inv_lost (b : SnakeApp) : Inv (lost b) := invState_default (some b.score)

lemma inv_init : Inv initApp := invState_default none

lemma inv_toggle {a : SnakeApp} (h : Inv a) : Inv (toggle_pause a) := h

lemma inv_submit {a : SnakeApp} (h : Inv a) (d : Direction) :
    Inv (submit_direction a d) := by
  unfold submit_direction
  split
  · exact h
  · obtain ⟨h1, h2, h3, h4, h5, h6⟩ := h
    cases d
    · unfold SnakeApp.up
      by_cases hguard : a.state.direction = Direction.Down
      · rw [if_pos hguard]
        exact ⟨h1, h2, h3, h4, h5, h6⟩
      · rw [if_neg hguard]
        refine ⟨h1, h2, h3, h4, ?_, h6⟩
        intro d' hd'
        obtain rfl := Option.some.inj hd'
        intro hc
        exact hguard (reverse_eq_iff.mp hc.symm)
    · unfold SnakeApp.right
      by_cases hguard : a.state.direction = Direction.Left
      · rw [if_pos hguard]
        exact ⟨h1, h2, h3, h4, h5, h6⟩
      · rw [if_neg hguard]
        refine ⟨h1, h2, h3, h4, ?_, h6⟩
        intro d' hd'
        obtain rfl := Option.some.inj hd'
        intro hc
        exact hguard (reverse_eq_iff.mp hc.symm)
    · unfold SnakeApp.down
      by_cases hguard : a.state.direction = Direction.Up
      · rw [if_pos hguard]
        exact ⟨h1, h2, h3, h4, h5, h6⟩
      · rw [if_neg hguard]
        refine ⟨h1, h2, h3, h4, ?_, h6⟩
        intro d' hd'
        obtain rfl := Option.some.inj hd'
        intro hc
        exact hguard (reverse_eq_iff.mp hc.symm)
    · unfold SnakeApp.left
      by_cases hguard : a.state.direction = Direction.Right
      · rw [if_pos hguard]
        exact ⟨h1, h2, h3, h4, h5, h6⟩
      · rw [if_neg hguard]
        refine ⟨h1, h2, h3, h4, ?_, h6⟩
        intro d' hd'
        obtain rfl := Option.some.inj hd'
        intro hc
        exact hguard (reverse_eq_iff.mp hc.symm)

lemma inv_placeApple_board (s : State) (g : Rat → Bool) (pk : Nat)
    (hWF : BoardWF s.board)
    (hdisj : ∀ p, boardGet s.board p = true → p ∉ s.snake)
    (hbnd : ∀ p ∈ s.snake, inBounds p) :
    BoardWF (placeApple s g pk).board ∧
    (∀ p, boardGet (placeApple s g pk).board p = true → p ∉ s.snake) := by
  unfold placeApple
  dsimp only
  split
  case isTrue hcond =>
    cases hch : chooseOpt (foodOptions s.board s.snake) pk with
    | none => exact ⟨hWF, hdisj⟩
    | some a =>
      dsimp only
      have ham := chooseOpt_mem hch
      have hain : inBounds a := foodOptions_inBounds hWF ham
      have hans : a ∉ s.snake := foodOptions_not_mem_snake ham
      refine ⟨boardWF_boardSet hWF a true, ?_⟩
      intro p hp
      rcases boardGet_boardSet_true _ _ _ _ hp with ⟨hy, hx, -⟩ | hold
      · by_cases hpin : inBounds p
        · obtain rfl := pos_eq_of_toNat hpin hain hy hx
          exact hans
        · intro hmem
          exact hpin (hbnd p hmem)
      · exact hdisj p hold
  case isFalse => exact ⟨hWF, hdisj⟩

lemma invState_finishTick (s : State) (g : Rat → Bool) (pk : Nat)
    (h1 : START_LENGTH ≤ s.snake.length)
    (h2 : ∀ p ∈ s.snake, inBounds p)
    (h3 : BoardWF s.board)
    (h4 : ∀ p, boardGet s.board p = true → p ∉ s.snake)
    (h5 : ∀ d, s.next_input = some d → d ≠ s.direction.reverse)
    (h6 : ∀ p₀ p₁ rest, s.snake = p₀ :: p₁ :: rest →
      p₁ = movePos p₀ s.direction.reverse) :
    InvState (finishTick s g pk) := by
  obtain ⟨hbWF, hbdisj⟩ := inv_placeApple_board s g pk h3 h4 h2
  obtain ⟨b', hb⟩ := placeApple_shape s g pk
  unfold finishTick
  rw [hb] at hbWF hbdisj ⊢
  exact ⟨h1, h2, hbWF, hbdisj, h5, h6⟩

lemma inv_tick {a : SnakeApp} (g : Rat → Bool) (pk : Nat) (h : Inv a) :
    Inv (update_state a g pk) := by
  obtain ⟨h1, h2, h3, h4, h5, h6⟩ := h
  by_cases hin : inBounds (nextHead a.state)
  case neg =>
    rw [update_state_out a g pk hin]
    exact invState_default _
  case pos =>
  have h5' : ∀ d', a.state.next_input = some d' →
      d' ≠ (effectiveDir a.state).reverse := by
    intro d' hd' hc
    have heff : effectiveDir a.state = d' := by
      unfold effectiveDir
      rw [hd']
      rfl
    rw [heff] at hc
    exact reverse_ne_self d' hc.symm
  cases heat : boardGet a.state.board (nextHead a.state) with
  | true =>
    have hnm : nextHead a.state ∉ a.state.snake := h4 _ heat
    rw [update_state_eat a g pk hin heat hnm]
    refine invState_finishTick _ g pk ?_ ?_ ?_ ?_ h5' ?_
    · show START_LENGTH ≤ (nextHead a.state :: a.state.snake).length
      rw [List.length_cons]
      omega
    · show ∀ p ∈ nextHead a.state :: a.state.snake, inBounds p
      intro p hp
      rcases List.mem_cons.mp hp with rfl | hp'
      · exact hin
      · exact h2 p hp'
    · exact boardWF_boardSet h3 _ _
    · show ∀ p, boardGet (boardSet a.state.board (nextHead a.state) false) p =
          true → p ∉ nextHead a.state :: a.state.snake
      intro p hp
      by_cases hidx : p.y.toNat = (nextHead a.state).y.toNat ∧
          p.x.toNat = (nextHead a.state).x.toNat
      · exfalso
        have hlt := boardIdx_lt h3 hin
        rw [boardGet_eq_of_idx _ hidx.1 hidx.2,
          boardGet_boardSet_self _ _ _ hlt.1 hlt.2] at hp
        exact Bool.noConfusion hp
      · have hne : (nextHead a.state).y.toNat ≠ p.y.toNat ∨
            (nextHead a.state).x.toNat ≠ p.x.toNat := by
          rcases not_and_or.mp hidx with hh | hh
          · exact Or.inl (fun e => hh e.symm)
          · exact Or.inr (fun e => hh e.symm)
        rw [boardGet_boardSet_ne _ _ _ _ hne] at hp
        intro hmem
        rcases List.mem_cons.mp hmem with rfl | hmem'
        · exact hidx ⟨rfl, rfl⟩
        · exact h4 p hp hmem'
    · show ∀ p₀ p₁ rest, nextHead a.state :: a.state.snake = p₀ :: p₁ :: rest →
          p₁ = movePos p₀ (effectiveDir a.state).reverse
      intro p₀ p₁ rest heq
      injection heq with he₀ he₁
      subst he₀
      have hh : nextHead a.state = movePos p₁ (effectiveDir a.state) := by
        unfold nextHead
        rw [he₁]
        rfl
      rw [hh, movePos_reverse]
  | false =>
    by_cases hmem : nextHead a.state ∈ a.state.snake.dropLast
    case pos =>
      rw [update_state_move_collide a g pk hin heat hmem]
      exact invState_default _
    case neg =>
      rw [update_state_move a g pk hin heat hmem]
      refine invState_finishTick _ g pk ?_ ?_ h3 ?_ h5' ?_
      · show START_LENGTH ≤ (nextHead a.state :: a.state.snake.dropLast).length
        rw [List.length_cons, List.length_dropLast]
        omega
      · show ∀ p ∈ nextHead a.state :: a.state.snake.dropLast, inBounds p
        intro p hp
        rcases List.mem_cons.mp hp with rfl | hp'
        · exact hin
        · exact h2 p (List.dropLast_subset _ hp')
      · show ∀ p, boardGet a.state.board p = true →
            p ∉ nextHead a.state :: a.state.snake.dropLast
        intro p hp hmemc
        rcases List.mem_cons.mp hmemc with rfl | hmem'
        · exact Bool.noConfusion (hp.symm.trans heat)
        · exact h4 p hp (List.dropLast_subset _ hmem')
      · show ∀ p₀ p₁ rest,
            nextHead a.state :: a.state.snake.dropLast = p₀ :: p₁ :: rest →
            p₁ = movePos p₀ (effectiveDir a.state).reverse
        intro p₀ p₁ rest heq
        injection heq with he₀ he₁
        subst he₀
        rcases hsn : a.state.snake with _ | ⟨q₀, tl⟩
        · rw [hsn] at h1
          unfold START_LENGTH at h1
          simp at h1
        · cases tl with
          | nil =>
            rw [hsn] at h1
            unfold START_LENGTH at h1
            simp at h1
          | cons q₁ tl' =>
            rw [hsn, List.dropLast_cons₂] at he₁
            injection he₁ with hq₀ htl
            rw [← hq₀]
            have hh : nextHead a.state = movePos q₀ (effectiveDir a.state) := by
              unfold nextHead
              rw [hsn]
              rfl
            rw [hh, movePos_reverse]

/-- Every reachable app satisfies the engine invariant. -/
lemma inv_reachable {app : SnakeApp} (h : Reachable app) : Inv app := by
  induction h with
  | init => exact inv_init
  | toggle _ ih => exact inv_toggle ih
  | submit _ ih => exact inv_submit ih _
  | tick _ _ ih => exact inv_tick _ _ ih

lemma placeApple_keeps_cleared (s : State) (g : Rat → Bool) (pk : Nat)
    (q : Pos) (hWF : BoardWF s.board) (hqin : inBounds q)
    (hq : boardGet s.board q = false) (hqs : q ∈ s.snake) :
    boardGet (placeApple s g pk).board q = false := by
  unfold placeApple
  dsimp only
  split
  · cases hch : chooseOpt (foodOptions s.board s.snake) pk with
    | none => exact hq
    | some apple =>
      dsimp only
      have ham := chooseOpt_mem hch
      have hasn := foodOptions_not_mem_snake ham
      have hain := foodOptions_inBounds hWF ham
      by_cases hyx : apple.y.toNat = q.y.toNat ∧ apple.x.toNat = q.x.toNat
      · obtain rfl := pos_eq_of_toNat hain hqin hyx.1 hyx.2
        exact absurd hqs hasn
      · rw [boardGet_boardSet_ne _ _ _ _ (not_and_or.mp hyx)]
        exact hq
  · exact hq

/-- C2: in every reachable state the score equals snake length minus
`START_LENGTH` as an exact integer difference (the `usize` subtraction in
`score` never truncates because the length never drops below
`START_LENGTH`); the score is computed by the `score` function, never
stored. -/
theorem score_eq_length_sub (app : SnakeApp) (hr : Reachable app) :
    (app.score : Int) =
      (app.state.snake.length : Int) - (START_LENGTH : Int) := by
  obtain ⟨h1, -⟩ := inv_reachable hr
  unfold SnakeApp.score
  unfold START_LENGTH at h1 ⊢
  omega

/-- Witness for C2 at the startup state. -/
theorem score_eq_length_sub_witness :
    (initApp.score : Int) =
      (initApp.state.snake.length : Int) - (START_LENGTH : Int) :=
  score_eq_length_sub initApp Reachable.init

/-- C8: in every reachable state the food cells are disjoint from the
snake-occupied cells. -/
theorem food_disjoint_snake (app : SnakeApp) (hr : Reachable app) :
    ∀ p, boardGet app.state.board p = true → p ∉ app.state.snake :=
  (inv_reachable hr).2.2.2.1

/-- The app after unpausing and one tick with choice index 123: the snake
has advanced to `[(5,3), (4,3), (3,3)]` and the mandatory spawn has placed
the single food cell at `(6,3)`. -/
def twoTickApp : SnakeApp := update_state (toggle_pause initApp) gF 123

set_option maxRecDepth 1000000 in
/-- Witness for C8 at a reachable state that actually has food: the food
cell `(6,3)` of `twoTickApp` is not on the snake. -/
theorem food_disjoint_snake_witness : (⟨6, 3⟩ : Pos) ∉ twoTickApp.state.snake :=
  food_disjoint_snake twoTickApp
    (show Reachable twoTickApp from
      Reachable.tick (Reachable.toggle Reachable.init) rfl)
    ⟨6, 3⟩ (by decide)

/-- C10: in every reachable state the snake has at least `START_LENGTH`
cells (so the `usize` subtraction in `score`, `snake[0]`,
`back().unwrap()` and `pop_back` are safe), all of them inside
`[0,40)×[0,20)` (so the board indexing by snake coordinates is in range);
moreover a self-collision after tail removal can only happen with at least
`START_LENGTH + 1` cells, so the score recomputed inside `lost` mid-tick
never underflows either. -/
theorem snake_wellformed (app : SnakeApp) (hr : Reachable app) :
    START_LENGTH ≤ app.state.snake.length ∧
    app.state.snake ≠ [] ∧
    (∀ p ∈ app.state.snake, inBounds p) ∧
    (nextHead app.state ∈ app.state.snake.dropLast →
      START_LENGTH + 1 ≤ app.state.snake.length) := by
  obtain ⟨h1, h2, h3, h4, h5, h6⟩ := inv_reachable hr
  refine ⟨h1, ?_, h2, ?_⟩
  · intro hnil
    rw [hnil] at h1
    unfold START_LENGTH at h1
    simp at h1
  · intro hmem
    rcases hsn : app.state.snake with _ | ⟨q₀, _ | ⟨q₁, _ | ⟨q₂, _ | ⟨q₃, tl₄⟩⟩⟩⟩
    · rw [hsn] at h1
      unfold START_LENGTH at h1
      simp at h1
    · rw [hsn] at h1
      unfold START_LENGTH at h1
      simp at h1
    · rw [hsn] at h1
      unfold START_LENGTH at h1
      simp at h1
    · exfalso
      rw [hsn] at hmem
      have hd : ([q₀, q₁, q₂] : List Pos).dropLast = [q₀, q₁] := rfl
      rw [hd] at hmem
      have hnh : nextHead app.state = movePos q₀ (effectiveDir app.state) := by
        unfold nextHead
        rw [hsn]
        rfl
      rcases List.mem_cons.mp hmem with he | hmem₁
      · rw [hnh] at he
        exact movePos_ne q₀ _ he
      · rcases List.mem_cons.mp hmem₁ with he | hnil
        · have hneck := h6 q₀ q₁ [q₂] hsn
          rw [hnh, hneck] at he
          have heq := movePos_inj q₀ he
          cases hni : app.state.next_input with
          | none =>
            have heff : effectiveDir app.state = app.state.direction := by
              unfold effectiveDir
              rw [hni]
              rfl
            rw [heff] at heq
            exact reverse_ne_self _ heq.symm
          | some d' =>
            have heff : effectiveDir app.state = d' := by
              unfold effectiveDir
              rw [hni]
              rfl
            rw [heff] at heq
            exact h5 d' hni heq
        · cases hnil
    · simp only [List.length_cons]
      unfold START_LENGTH
      omega

/-- Witness for C10 at the startup state. -/
theorem snake_wellformed_witness :
    START_LENGTH ≤ initApp.state.snake.length ∧
    initApp.state.snake ≠ [] ∧
    (∀ p ∈ initApp.state.snake, inBounds p) ∧
    (nextHead initApp.state ∈ initApp.state.snake.dropLast →
      START_LENGTH + 1 ≤ initApp.state.snake.length) :=
  snake_wellformed initApp Reachable.init

/-- C5: in a reachable running state whose next head position holds food,
the tick completes normally (no loss), the tail is not removed and the
snake grows by exactly one; the food check clears exactly that cell —
the cleared board has exactly one food cell fewer and agrees with the old
board on every other in-bounds cell — and at the end of the tick the new
head's cell holds no food (a freshly spawned apple never lands on the
snake). -/
theorem eat_food_growth (app : SnakeApp) (g : Rat → Bool) (pk : Nat)
    (hr : Reachable app)
    (hrun : app.state.paused = false)
    (hin : inBounds (nextHead app.state))
    (hfood : boardGet app.state.board (nextHead app.state) = true) :
    (update_state app g pk).state.paused = false ∧
    (update_state app g pk).state.snake =
      nextHead app.state :: app.state.snake ∧
    (update_state app g pk).state.snake.length =
      app.state.snake.length + 1 ∧
    countFood (boardSet app.state.board (nextHead app.state) false) + 1 =
      countFood app.state.board ∧
    (∀ q, inBounds q → q ≠ nextHead app.state →
      boardGet (boardSet app.state.board (nextHead app.state) false) q =
        boardGet app.state.board q) ∧
    boardGet (update_state app g pk).state.board (nextHead app.state) =
      false := by
  obtain ⟨h1, h2, h3, h4, h5, h6⟩ := inv_reachable hr
  have hnm : nextHead app.state ∉ app.state.snake := h4 _ hfood
  rw [update_state_eat app g pk hin hfood hnm]
  have hlt := boardIdx_lt h3 hin
  refine ⟨((finishTick_fields _ g pk).1).trans hrun,
    (finishTick_fields _ g pk).2.2.2.1, ?_, ?_, ?_, ?_⟩
  · rw [(finishTick_fields _ g pk).2.2.2.1]
    exact List.length_cons _ _
  · exact countFood_boardSet_false _ _ hfood
  · intro q hqin hqne
    by_cases hyx : (nextHead app.state).y.toNat = q.y.toNat ∧
        (nextHead app.state).x.toNat = q.x.toNat
    · exact absurd (pos_eq_of_toNat hqin hin hyx.1.symm hyx.2.symm) hqne
    · exact boardGet_boardSet_ne _ _ _ _ (not_and_or.mp hyx)
  · exact placeApple_keeps_cleared
      ({ postEat app with snake := nextHead app.state :: app.state.snake })
      g pk (nextHead app.state)
      (boardWF_boardSet h3 _ _) hin
      (boardGet_boardSet_self _ _ _ hlt.1 hlt.2)
      (List.mem_cons_self _ _)

set_option maxRecDepth 1000000 in
/-- Witness for C5: in `twoTickApp` (food at `(6,3)`, head at `(5,3)`,
heading right) the next tick eats: the snake grows to length 4 and the food
cell is cleared. -/
theorem eat_food_growth_witness :
    (update_state twoTickApp gF 0).state.paused = false ∧
    (update_state twoTickApp gF 0).state.snake =
      nextHead twoTickApp.state :: twoTickApp.state.snake ∧
    (update_state twoTickApp gF 0).state.snake.length =
      twoTickApp.state.snake.length + 1 ∧
    countFood (boardSet twoTickApp.state.board (nextHead twoTickApp.state)
      false) + 1 = countFood twoTickApp.state.board ∧
    (∀ q, inBounds q → q ≠ nextHead twoTickApp.state →
      boardGet (boardSet twoTickApp.state.board (nextHead twoTickApp.state)
        false) q = boardGet twoTickApp.state.board q) ∧
    boardGet (update_state twoTickApp gF 0).state.board
      (nextHead twoTickApp.state) = false :=
  eat_food_growth twoTickApp gF 0
    (show Reachable twoTickApp from
      Reachable.tick (Reachable.toggle Reachable.init) rfl)
    (by decide) (by decide) (by decide)

/-! ## Score-history lemmas -/

lemma recordScore_props (scores : List Nat) (score : Nat)
    (hlen : scores.length ≤ 10)
    (hsort : List.Sorted (· ≥ ·) scores) :
    (recordScore scores score).length ≤ 10 ∧
    List.Sorted (· ≥ ·) (recordScore scores score) ∧
    (∀ x ∈ recordScore scores score, x ∈ scores ∨ x = score) := by
  unfold recordScore
  split
  case isTrue h =>
    refine ⟨?_, ?_, ?_⟩
    · rw [List.length_take]
      exact min_le_left _ _
    · have hs := @List.sorted_mergeSort Nat (fun a b => decide (b ≤ a))
        (fun a b c hab hbc =>
          decide_eq_true
            (le_trans (of_decide_eq_true hbc) (of_decide_eq_true hab)))
        (fun a b => by rcases Nat.le_total a b with hh | hh <;> simp [hh])
        (scores ++ [score])
      refine List.Pairwise.sublist (List.take_sublist _ _) ?_
      exact hs.imp (fun hab => of_decide_eq_true hab)
    · intro x hx
      have hx' := (List.take_sublist _ _).subset hx
      rw [List.mem_mergeSort, List.mem_append] at hx'
      rcases hx' with hx' | hx'
      · exact Or.inl hx'
      · exact Or.inr (List.mem_singleton.mp hx')
  case isFalse h =>
    exact ⟨hlen, hsort, fun x hx => Or.inl hx⟩

lemma foldl_recordScore_props (losses : List Nat) (init : List Nat)
    (hlen : init.length ≤ 10)
    (hsort : List.Sorted (· ≥ ·) init) :
    (losses.foldl recordScore init).length ≤ 10 ∧
    List.Sorted (· ≥ ·) (losses.foldl recordScore init) ∧
    (∀ x ∈ losses.foldl recordScore init, x ∈ init ∨ x ∈ losses) := by
  induction losses generalizing init with
  | nil => exact ⟨hlen, hsort, fun x hx => Or.inl hx⟩
  | cons a tl ih =>
    obtain ⟨l1, l2, l3⟩ := recordScore_props init a hlen hsort
    obtain ⟨f1, f2, f3⟩ := ih (recordScore init a) l1 l2
    refine ⟨f1, f2, ?_⟩
    intro x hx
    rcases f3 x hx with hx' | hx'
    · rcases l3 x hx' with hh | hh
      · exact Or.inl hh
      · exact Or.inr (by simp [hh])
    · exact Or.inr (List.mem_cons_of_mem a hx')

/-- C6: starting from an empty history, after any sequence of losses the
score history has at most 10 entries, is sorted descending (the sort is
`mergeSort`, a stable sort, so equal scores keep insertion order — over
natural-number scores this is observationally the sortedness itself), and
contains only scores that were actually achieved; a loss with score 0 adds
no entry. -/
theorem score_history_bounded_sorted :
    (∀ losses : List Nat,
      (losses.foldl recordScore []).length ≤ 10 ∧
      List.Sorted (· ≥ ·) (losses.foldl recordScore []) ∧
      (∀ x ∈ losses.foldl recordScore [], x ∈ losses)) ∧
    (∀ scores : List Nat, recordScore scores 0 = scores) := by
  constructor
  · intro losses
    obtain ⟨f1, f2, f3⟩ :=
      foldl_recordScore_props losses [] (by simp) List.sorted_nil
    refine ⟨f1, f2, ?_⟩
    intro x hx
    rcases f3 x hx with hx' | hx'
    · cases hx'
    · exact hx'
  · intro scores
    rfl

/-- Witness for C6: the loss sequence `[2, 0, 1]` yields the history
`[2, 1]` — two entries, sorted descending, both achieved, with the
zero-score loss adding nothing. -/
theorem score_history_bounded_sorted_witness :
    (([2, 0, 1] : List Nat).foldl recordScore []).length ≤ 10 ∧
    List.Sorted (· ≥ ·) (([2, 0, 1] : List Nat).foldl recordScore []) ∧
    (∀ x ∈ ([2, 0, 1] : List Nat).foldl recordScore [], x ∈ [2, 0, 1]) ∧
    recordScore [5] 0 = [5] :=
  ⟨(score_history_bounded_sorted.1 [2, 0, 1]).1,
   (score_history_bounded_sorted.1 [2, 0, 1]).2.1,
   (score_history_bounded_sorted.1 [2, 0, 1]).2.2,
   score_history_bounded_sorted.2 [5]⟩
